import Mathlib

/-!
Verification of the OCR-MOSIP line-segmentation, quality-gating and
verification-scoring pipeline (`app/ocr_engine.py`, `app/utils.py`).

The Python code is shallowly embedded: pixel coordinates and box geometry are
integers (`ℤ`), Python floats (medians, running averages, the blur score) are
modelled as exact rationals (`ℚ`), Python `//` is floor division (`Int.fdiv`),
and Python `round` is round-half-to-even.  The external collaborators (the
EasyOCR detector, the TrOCR recognizer, the `thefuzz` scoring function and the
OpenCV Laplacian) are abstracted as inputs/parameters; everything downstream of
them is translated from the source.
-/

namespace OCRMosip

/-- ASCII fragment `[A-Za-z0-9_]` of the word-character class `\w`, stated on
the code point of the character.  The regex module of Python 3 uses the full
Unicode word-character table, which agrees with this fragment on ASCII text;
therefore this fragment instantiates the classifier only on ASCII-literal
examples, while every general theorem about the `^\W*$` rule quantifies over
an arbitrary classifier so that it covers the Unicode table as well. -/
def wordChar (c : Char) : Bool :=
  (65 ≤ c.toNat ∧ c.toNat ≤ 90) ∨ (97 ≤ c.toNat ∧ c.toNat ≤ 122) ∨
    (48 ≤ c.toNat ∧ c.toNat ≤ 57) ∨ c = '_'

/-- Python `str.lower()`: lowercase every character. -/
def lowerStr (t : String) : String := ⟨t.data.map Char.toLower⟩

/-- Embedding of `OCREngine.clean_text_output` (ocr_engine.py:61-64), generic
in the word-character classifier `w` of the regex class `\w`: drop text
matching `^\W*$` (every character non-word under `w`), drop strings of length
`< 2` whose lowercase form is not `"a"`, otherwise return the text
unchanged. -/
def clean_text_core (w : Char → Bool) (text : String) : String :=
  if text.data.all (fun c => !w c) then ""
  else if text.length < 2 && lowerStr text != "a" then ""
  else text

/-- `OCREngine.clean_text_output` at the ASCII instance of the classifier,
adequate for the ASCII inputs it is evaluated on in this development; the
quantified theorems about `clean_text_core` cover the Unicode classifier. -/
def clean_text_output (text : String) : String :=
  clean_text_core wordChar text

/-- Python floor division `//` on integers. -/
def pydiv (a b : ℤ) : ℤ := Int.fdiv a b

/-- Python `round` on an exact rational: round half to even. -/
def pyround (q : ℚ) : ℤ :=
  if q + 1/2 = (⌊q + 1/2⌋ : ℚ) ∧ ⌊q + 1/2⌋ % 2 ≠ 0 then ⌊q + 1/2⌋ - 1
  else ⌊q + 1/2⌋

/-- LineBox of the pipeline: the 6-tuple
`[min_x, min_y, max_x, max_y, y_center, h]` built in `detect_and_merge_lines`
and consumed by `split_tall_boxes` and the line grouping. -/
structure Box where
  min_x : ℤ
  min_y : ℤ
  max_x : ℤ
  max_y : ℤ
  y_center : ℤ
  h : ℤ
deriving DecidableEq, Inhabited

/-- `np.median` on an integer list as an exact rational: sort ascending, take
the middle element for odd length, the mean of the two middle elements for
even length. -/
def medianQ (l : List ℤ) : ℚ :=
  let s := l.insertionSort (· ≤ ·)
  let n := s.length
  if n % 2 = 1 then ((s.getD (n / 2) 0 : ℤ) : ℚ)
  else (((s.getD (n / 2 - 1) 0 : ℤ) : ℚ) + ((s.getD (n / 2) 0 : ℤ) : ℚ)) / 2

/-- Body of the per-box loop of `OCREngine.split_tall_boxes`
(ocr_engine.py:210-227): a box taller than `2.0 × median` and taller than 30
is split into `max(2, round(h / median))` vertically stacked sub-boxes of
height `h // num_splits` sharing the original horizontal extent; any other
box passes through unchanged. -/
def splitOne (median_h : ℚ) (box : Box) : List Box :=
  if (box.h : ℚ) > median_h * 2 ∧ box.h > 30 then
    (List.range (max 2 (pyround ((box.h : ℚ) / median_h))).toNat).map (fun i : ℕ =>
      { min_x := box.min_x
        min_y := box.min_y + (i : ℤ) * pydiv box.h (max 2 (pyround ((box.h : ℚ) / median_h)))
        max_x := box.max_x
        max_y := box.min_y + ((i : ℤ) + 1) * pydiv box.h (max 2 (pyround ((box.h : ℚ) / median_h)))
        y_center := pydiv (box.min_y + (i : ℤ) * pydiv box.h (max 2 (pyround ((box.h : ℚ) / median_h)))
          + (box.min_y + ((i : ℤ) + 1) * pydiv box.h (max 2 (pyround ((box.h : ℚ) / median_h))))) 2
        h := pydiv box.h (max 2 (pyround ((box.h : ℚ) / median_h))) })
  else [box]

/-- Embedding of `OCREngine.split_tall_boxes` (ocr_engine.py:201-229): empty
input yields `[]`; otherwise each box goes through `splitOne` against the
median height of the whole list.  The unused `image_height` argument is kept
from the source signature. -/
def split_tall_boxes (boxes : List Box) (image_height : ℤ) : List Box :=
  if boxes.isEmpty then []
  else boxes.flatMap (splitOne (medianQ (boxes.map Box.h)))

/-- Running average of the vertical centers of the current group
(`sum(b[4] for b in current_line)/len(current_line)`, a Python float). -/
def avgCenter (line : List Box) : ℚ := ((line.map Box.y_center).sum : ℤ) / (line.length : ℚ)

/-- Running average of the heights of the current group
(`sum(b[5] for b in current_line)/len(current_line)`, a Python float). -/
def avgHeight (line : List Box) : ℚ := ((line.map Box.h).sum : ℤ) / (line.length : ℚ)

/-- One iteration of the grouping loop of `detect_and_merge_lines`
(ocr_engine.py:266-277): an empty current group absorbs the box; otherwise
the box joins the group when its center is within `0.6 ×` the running average
height of the running average center, else the group is closed. -/
def lineStep (acc : List (List Box) × List Box) (box : Box) : List (List Box) × List Box :=
  match acc with
  | (merged, []) => (merged, [box])
  | (merged, c :: cs) =>
    if |(box.y_center : ℚ) - avgCenter (c :: cs)| < avgHeight (c :: cs) * (6/10) then
      (merged, (c :: cs) ++ [box])
    else (merged ++ [c :: cs], [box])

/-- The grouping loop of `detect_and_merge_lines` (ocr_engine.py:262-278),
applied to boxes already sorted by vertical center: fold `lineStep` and close
the last group if non-empty. -/
def detect_lines (boxes : List Box) : List (List Box) :=
  let acc := boxes.foldl lineStep ([], [])
  if acc.2.isEmpty then acc.1 else acc.1 ++ [acc.2]

/-- One raw detection result of the external detector: a quadrilateral
`(tl, tr, br, bl)` with recognized `text` and confidence `prob`
(ocr_engine.py:247). -/
structure DetResult where
  tl : ℤ × ℤ
  tr : ℤ × ℤ
  br : ℤ × ℤ
  bl : ℤ × ℤ
  text : String
  prob : ℚ
deriving DecidableEq

/-- The LineBox a detection result is turned into (ocr_engine.py:249-258). -/
def mkRawBox (r : DetResult) : Box :=
  { min_x := min r.tl.1 r.bl.1
    min_y := min r.tl.2 r.tr.2
    max_x := max r.tr.1 r.br.1
    max_y := max r.bl.2 r.br.2
    y_center := pydiv (min r.tl.2 r.tr.2 + max r.bl.2 r.br.2) 2
    h := max r.bl.2 r.br.2 - min r.tl.2 r.tr.2 }

/-- The raw-box building loop of `detect_and_merge_lines`
(ocr_engine.py:246-258): for each detection result compute the bounding box
and its height, skip it when `height < 8`, otherwise append the LineBox. -/
def rawBoxesOf (results : List DetResult) : List Box :=
  results.foldl (fun acc r =>
    if max r.bl.2 r.br.2 - min r.tl.2 r.tr.2 < 8 then acc
    else acc ++ [mkRawBox r]) []

/-- Envelope of one closed group (ocr_engine.py:281-287): min over lefts/tops,
max over rights/bottoms of the member boxes. -/
def mergedCrop (line : List Box) : ℤ × ℤ × ℤ × ℤ :=
  match line with
  | [] => (0, 0, 0, 0)
  | b :: rest =>
    (rest.foldl (fun m bb => min m bb.min_x) b.min_x,
     rest.foldl (fun m bb => min m bb.min_y) b.min_y,
     rest.foldl (fun m bb => max m bb.max_x) b.max_x,
     rest.foldl (fun m bb => max m bb.max_y) b.max_y)

/-- Pure geometric part of `detect_and_merge_lines` (ocr_engine.py:246-289),
downstream of the external detector: filter raw boxes, split tall boxes,
sort by vertical center, group into lines, emit one crop per line. -/
def detect_and_merge_lines (results : List DetResult) (image_height : ℤ) :
    List (ℤ × ℤ × ℤ × ℤ) :=
  let sorted := (split_tall_boxes (rawBoxesOf results) image_height).insertionSort
    (fun a b : Box => a.y_center ≤ b.y_center)
  let lines := (detect_lines sorted).map
    (fun line => line.insertionSort (fun a b : Box => a.min_x ≤ b.min_x))
  lines.map mergedCrop

/-- Embedding of `OCREngine.is_blurry` (ocr_engine.py:68-76).  The Laplacian
variance computed by OpenCV is abstracted as the input `score`; the function
returns the pair `(score < threshold, score)` exactly as the source does. -/
def is_blurry (score : ℚ) (threshold : ℚ) : Bool × ℚ :=
  (score < threshold, score)

/-- Result of `extract_text`: either the blur rejection (a `ValueError` whose
message carries the blur score and the configured minimum, ocr_engine.py:305-312)
or the joined recognized text. -/
inductive ExtractResult where
  | blurRejected (blur_score : ℚ) (minRequired : ℚ)
  | ok (text : String)
deriving DecidableEq

/-- Control flow of `OCREngine.extract_text` (ocr_engine.py:291-388) around
the blur gate: the image is abstracted by its Laplacian-variance `blur_score`
and the recognizer by the per-line decoded strings `line_texts`.  When
`is_blurry` fires the request terminates with the score and the minimum (85),
returning no text; otherwise each line is cleaned, empty lines are dropped,
and the rest are joined with newlines. -/
def extract_text (blur_score : ℚ) (line_texts : List String) : ExtractResult :=
  if (is_blurry blur_score 85).1 then
    ExtractResult.blurRejected (is_blurry blur_score 85).2 85
  else
    ExtractResult.ok (String.intercalate "\n"
      ((line_texts.map clean_text_output).filter (fun t => t ≠ "")))

/-- Verification response of `verify_form_data` (utils.py:50-54). -/
structure VerificationResult where
  total_score : ℕ
  field_matches : List (String × ℕ)
  status : String
deriving DecidableEq

/-- Embedding of `verify_form_data` (utils.py:3-54).  The fuzzy
best-substring scoring function of `thefuzz` is abstracted as the parameter
`fz` (its value on `(expected_str, ocr_text)` is an integer 0-100, here `ℕ`);
`form_data` is the insertion-ordered association list of the Python dict,
with the expected values already coerced to strings. -/
def verify_form_data (fz : String → String → ℕ) (ocr_text : String)
    (form_data : List (String × String)) : VerificationResult :=
  let field_scores := form_data.map (fun f => (f.1, fz f.2 ocr_text))
  let total_score :=
    if field_scores.isEmpty then 0
    else (field_scores.map (fun s => s.2)).sum / field_scores.length
  { total_score := total_score
    field_matches := field_scores
    status := if total_score > 90 then "verified" else "review_required" }

/-- Concrete scoring function used to realize the spec example in which the
two fields of `form_data = {"a": "X", "b": "Y"}` receive the per-field scores
100 and 80. -/
def scoresEx : String → String → ℕ := fun v _ => if v = "X" then 100 else 80

/-- Example box with `y_center = 10`, `h = 20` (spec, Testable Properties). -/
def boxA : Box := { min_x := 0, min_y := 0, max_x := 50, max_y := 20, y_center := 10, h := 20 }

/-- Example box with `y_center = 14`, `h = 18` (spec, Testable Properties). -/
def boxB : Box := { min_x := 60, min_y := 5, max_x := 110, max_y := 23, y_center := 14, h := 18 }

/-- Example box with `y_center = 200`, `h = 18` (spec, Testable Properties). -/
def boxC : Box := { min_x := 0, min_y := 191, max_x := 50, max_y := 209, y_center := 200, h := 18 }

/-- Example box of height 30 (companion box for the tall-box split example). -/
def b30a : Box := { min_x := 0, min_y := 0, max_x := 100, max_y := 30, y_center := 15, h := 30 }

/-- Second example box of height 30 (companion box for the split example). -/
def b30b : Box := { min_x := 0, min_y := 40, max_x := 100, max_y := 70, y_center := 55, h := 30 }

/-- Example box of height 90 among boxes of median height 30: split into three
sub-boxes of height 30 (spec, Testable Properties). -/
def b90 : Box := { min_x := 0, min_y := 80, max_x := 100, max_y := 170, y_center := 125, h := 90 }

/-- Example detection result of height 20 (kept by the height filter). -/
def detR1 : DetResult :=
  { tl := (0, 0), tr := (50, 0), br := (50, 20), bl := (0, 20), text := "hi", prob := 9/10 }

/-- Example detection result of height 3 (dropped by the height filter). -/
def detR2 : DetResult :=
  { tl := (0, 0), tr := (50, 0), br := (50, 3), bl := (0, 3), text := "x", prob := 99/100 }

/-! Theorems settling the claims, with shared helper lemmas. -/

/-- Helper: `Char.ofNat` at a valid code point has that code point. -/
theorem char_toNat_ofNat {n : ℕ} (h : n.isValidChar) : (Char.ofNat n).toNat = n := by
  simp [Char.ofNat, dif_pos h, Char.ofNatAux, Char.toNat, UInt32.toNat]

/-- Helper: the only characters whose Python-lowercase form is the letter `a`
are `a` itself and `A`. -/
theorem toLower_eq_a_cases {c : Char} (h : c.toLower = 'a') : c = 'a' ∨ c = 'A' := by
  simp only [Char.toLower] at h
  split at h
  · rename_i hc
    right
    have hv : (c.toNat + 32).isValidChar := Or.inl (by omega)
    have h97 : (Char.ofNat (c.toNat + 32)).toNat = 'a'.toNat := by rw [h]
    rw [char_toNat_ofNat hv] at h97
    have ha97 : ('a').toNat = 97 := by decide
    have h65 : c.toNat = 65 := by
      rw [ha97] at h97
      omega
    have hA := Char.ofNat_toNat c
    rw [h65] at hA
    exact hA.symm.trans (by decide)
  · exact Or.inl h

/-- Helper: for any word-character classifier that classifies `a` and `A` as
word characters (as the Unicode table of Python does), `clean_text_core` on a
single-character string keeps the string exactly when its lowercase form is
`"a"`. -/
theorem clean_core_single_char (w : Char → Bool) (ha : w 'a' = true)
    (hA : w 'A' = true) (c : Char) :
    clean_text_core w ⟨[c]⟩ = if lowerStr ⟨[c]⟩ = "a" then (⟨[c]⟩ : String) else "" := by
  by_cases hw : w c
  · have h1 : ([c].all fun x => !w x) = false := by simp [hw]
    by_cases hl : lowerStr ⟨[c]⟩ = "a"
    · simp [clean_text_core, h1, hl, String.length]
    · simp [clean_text_core, h1, hl, String.length]
  · have h1 : ([c].all fun x => !w x) = true := by
      simp [List.all_cons, hw]
    have hl : lowerStr ⟨[c]⟩ ≠ "a" := by
      intro hcontra
      have hlow : c.toLower = 'a' := by
        have : ([c].map Char.toLower) = ['a'] := by
          have := congrArg String.data hcontra
          simpa [lowerStr] using this
        simpa using this
      rcases toLower_eq_a_cases hlow with rfl | rfl
      · exact hw ha
      · exact hw hA
    simp [clean_text_core, h1, hl]

/-- C1 counterexample: the claim says the single-character exception is
case-sensitive and that uppercase `"A"` is dropped; in the code the check is
`text.lower() != 'a'`, so `"A"` (a length-1 string different from `"a"`) is
returned unchanged rather than dropped. -/
theorem clean_text_output_keeps_capital_A :
    "A".length = 1 ∧ ("A" : String) ≠ "a" ∧
      clean_text_output "A" = "A" ∧ ("A" : String) ≠ "" := by
  refine ⟨by decide, by decide, ?_, by decide⟩
  decide

/-- C1 (amended): the cleaner returns empty when the text consists entirely
of characters that are non-word under the word-character classifier of the
regex (the general rules below hold for an arbitrary classifier `w`, hence in
particular for the Unicode table that Python uses); a string of length 1 is
kept exactly when its Python-lowercase form is `"a"` — the one-letter
exception is case-insensitive, so both `"a"` and `"A"` are kept while `"I"`
and `"..."` are dropped; any other text is returned unchanged. -/
theorem clean_text_output_spec :
    (∀ (w : Char → Bool) (t : String),
      (∀ c ∈ t.data, w c = false) → clean_text_core w t = "") ∧
    (∀ (w : Char → Bool) (t : String), w 'a' = true → w 'A' = true →
      t.length = 1 → clean_text_core w t = if lowerStr t = "a" then t else "") ∧
    clean_text_output "..." = "" ∧ clean_text_output "I" = "" ∧
    clean_text_output "a" = "a" ∧ clean_text_output "A" = "A" ∧
    (∀ (w : Char → Bool) (t : String), 2 ≤ t.length →
      (∃ c ∈ t.data, w c = true) → clean_text_core w t = t) := by
  refine ⟨?_, ?_, by decide, by decide, by decide, by decide, ?_⟩
  · intro w t h
    have h1 : (t.data.all fun c => !w c) = true := by
      simp only [List.all_eq_true]
      intro c hc
      simp [h c hc]
    simp [clean_text_core, h1]
  · intro w t ha hA ht
    obtain ⟨d⟩ := t
    have hd : d.length = 1 := ht
    obtain ⟨c, hc⟩ : ∃ c, d = [c] := by
      cases d with
      | nil => simp at hd
      | cons a l =>
        cases l with
        | nil => exact ⟨a, rfl⟩
        | cons b m => simp at hd
    subst hc
    exact clean_core_single_char w ha hA c
  · intro w t hlen hex
    have h1 : (t.data.all fun c => !w c) = false := by
      obtain ⟨c, hc, hw⟩ := hex
      simp only [List.all_eq_false]
      exact ⟨c, hc, by simp [hw]⟩
    have h2 : ¬ t.length < 2 := by omega
    simp [clean_text_core, h1, h2]

/-- C1 witness: the non-word rule applied to the concrete input `"..."` and
the single-character rule applied to `"I"` (dropped) and `"A"` (kept), at the
ASCII instance of the classifier. -/
theorem clean_text_output_spec_witness :
    clean_text_core wordChar "..." = "" ∧
      clean_text_core wordChar "I" = (if lowerStr "I" = "a" then ("I" : String) else "") ∧
      clean_text_core wordChar "A" = (if lowerStr "A" = "a" then ("A" : String) else "") :=
  ⟨clean_text_output_spec.1 wordChar "..." (by decide),
   clean_text_output_spec.2.1 wordChar "I" (by decide) (by decide) (by decide),
   clean_text_output_spec.2.1 wordChar "A" (by decide) (by decide) (by decide)⟩

/-- C10: `clean_text_output` returns either the empty string or its input
unchanged, and is therefore idempotent. -/
theorem clean_text_output_idempotent :
    ∀ t : String, (clean_text_output t = "" ∨ clean_text_output t = t) ∧
      clean_text_output (clean_text_output t) = clean_text_output t := by
  intro t
  have hcases : clean_text_output t = "" ∨ clean_text_output t = t := by
    unfold clean_text_output clean_text_core
    split
    · exact Or.inl rfl
    · split
      · exact Or.inl rfl
      · exact Or.inr rfl
  refine ⟨hcases, ?_⟩
  rcases hcases with h | h
  · rw [h]; decide
  · rw [h]; exact h

/-- C2: for every scoring function, OCR text and non-empty field list, the
total score is the floor (integer) division of the sum of the per-field
scores by the number of fields; the status is `"verified"` exactly when the
total score is strictly greater than 90; and on the example of the spec with
per-field scores 100 and 80 the total is 90 with status `"review_required"`. -/
theorem verify_form_data_aggregate :
    (∀ (fz : String → String → ℕ) (ocr : String) (fd : List (String × String)),
      fd ≠ [] →
      (verify_form_data fz ocr fd).total_score
        = (fd.map fun f => fz f.2 ocr).sum / fd.length) ∧
    (∀ (fz : String → String → ℕ) (ocr : String) (fd : List (String × String)),
      (verify_form_data fz ocr fd).status = "verified"
        ↔ 90 < (verify_form_data fz ocr fd).total_score) ∧
    (verify_form_data scoresEx "" [("a", "X"), ("b", "Y")]).total_score = 90 ∧
    (verify_form_data scoresEx "" [("a", "X"), ("b", "Y")]).status = "review_required" := by
  refine ⟨?_, ?_, by decide, by decide⟩
  · intro fz ocr fd hfd
    cases fd with
    | nil => exact absurd rfl hfd
    | cons a l =>
      simp [verify_form_data, List.map_map, Function.comp_def]
  · intro fz ocr fd
    have h1 : (verify_form_data fz ocr fd).status
        = if 90 < (verify_form_data fz ocr fd).total_score
          then "verified" else "review_required" := rfl
    rw [h1]
    split
    · rename_i h
      exact iff_of_true rfl h
    · rename_i h
      exact iff_of_false (by decide) h

/-- C2 witness: the aggregate formula instantiated on the concrete two-field
example. -/
theorem verify_form_data_aggregate_witness :
    (verify_form_data scoresEx "" [("a", "X"), ("b", "Y")]).total_score
      = (([("a", "X"), ("b", "Y")] : List (String × String)).map
          fun f => scoresEx f.2 "").sum
        / ([("a", "X"), ("b", "Y")] : List (String × String)).length :=
  verify_form_data_aggregate.1 scoresEx "" [("a", "X"), ("b", "Y")] (by decide)

/-- C7: on an empty field mapping `verify_form_data` returns total score 0,
an empty per-field mapping and status `"review_required"` (and, being a total
function of its inputs, raises no error). -/
theorem verify_form_data_empty :
    ∀ (fz : String → String → ℕ) (ocr : String),
      verify_form_data fz ocr []
        = { total_score := 0, field_matches := [], status := "review_required" } := by
  intro fz ocr
  rfl

/-- C8: the total score and the status of `verify_form_data` are invariant
under any permutation of the fields of `form_data`, and the per-field match
list is permuted accordingly (the embedding is a pure function, so the input
mapping itself is untouched). -/
theorem verify_form_data_order_invariant :
    ∀ (fz : String → String → ℕ) (ocr : String) (fd fd' : List (String × String)),
      fd.Perm fd' →
      (verify_form_data fz ocr fd).total_score
          = (verify_form_data fz ocr fd').total_score ∧
      (verify_form_data fz ocr fd).status = (verify_form_data fz ocr fd').status ∧
      ((verify_form_data fz ocr fd).field_matches).Perm
        ((verify_form_data fz ocr fd').field_matches) := by
  intro fz ocr fd fd' hp
  have hmap := hp.map (fun f => (f.1, fz f.2 ocr))
  have htot : (verify_form_data fz ocr fd).total_score
      = (verify_form_data fz ocr fd').total_score := by
    rcases Decidable.em (fd = []) with rfl | hne
    · have h' : fd' = [] := List.nil_perm.mp hp
      subst h'
      rfl
    · have hne' : fd' ≠ [] := by
        intro h
        subst h
        exact hne (List.perm_nil.mp hp)
      have hsum : ((fd.map fun f => (f.1, fz f.2 ocr)).map (fun s => s.2)).sum
          = ((fd'.map fun f => (f.1, fz f.2 ocr)).map (fun s => s.2)).sum :=
        (hmap.map (fun s => s.2)).sum_eq
      have hlen : fd.length = fd'.length := hp.length_eq
      have hie : (fd.map fun f => (f.1, fz f.2 ocr)).isEmpty = false := by
        simp [hne]
      have hie' : (fd'.map fun f => (f.1, fz f.2 ocr)).isEmpty = false := by
        simp [hne']
      simp only [verify_form_data, hie, hie', Bool.false_eq_true, if_false]
      rw [hsum]
      simp [hlen]
  have hstat : (verify_form_data fz ocr fd).status
      = (verify_form_data fz ocr fd').status := by
    have h1 : (verify_form_data fz ocr fd).status
        = if 90 < (verify_form_data fz ocr fd).total_score
          then "verified" else "review_required" := rfl
    have h2 : (verify_form_data fz ocr fd').status
        = if 90 < (verify_form_data fz ocr fd').total_score
          then "verified" else "review_required" := rfl
    rw [h1, h2, htot]
  exact ⟨htot, hstat, hmap⟩

/-- C8 witness: swapping the two fields of the concrete example leaves the
total score unchanged. -/
theorem verify_form_data_order_invariant_witness :
    (verify_form_data scoresEx "" [("a", "X"), ("b", "Y")]).total_score
      = (verify_form_data scoresEx "" [("b", "Y"), ("a", "X")]).total_score :=
  (verify_form_data_order_invariant scoresEx "" _ _ (by decide)).1

/-- Helper: the raw-box building fold, started from any accumulator, appends
exactly the boxes of the results of height at least 8. -/
theorem rawBoxesOf_foldl (results : List DetResult) (acc : List Box) :
    results.foldl (fun acc r =>
        if max r.bl.2 r.br.2 - min r.tl.2 r.tr.2 < 8 then acc
        else acc ++ [mkRawBox r]) acc
      = acc ++ (results.filter fun r => 8 ≤ (mkRawBox r).h).map mkRawBox := by
  induction results generalizing acc with
  | nil => simp
  | cons r rs ih =>
    simp only [List.foldl_cons, List.filter_cons]
    rcases Decidable.em (max r.bl.2 r.br.2 - min r.tl.2 r.tr.2 < 8) with h | h
    · have hb : ¬ 8 ≤ (mkRawBox r).h := by
        simp only [mkRawBox]
        omega
      rw [if_pos h, ih]
      simp [hb]
    · have hb : 8 ≤ (mkRawBox r).h := by
        simp only [mkRawBox]
        omega
      rw [if_neg h, ih]
      simp [hb]

/-- C6: every detection box of height strictly below 8 is discarded when the
raw boxes are built (before splitting and grouping), every box of height at
least 8 survives, and the outcome is independent of the detection confidence
and of the detected text. -/
theorem raw_box_height_filter :
    ∀ results : List DetResult,
      rawBoxesOf results = (results.filter fun r => 8 ≤ (mkRawBox r).h).map mkRawBox ∧
      (∀ b ∈ rawBoxesOf results, 8 ≤ b.h) ∧
      (∀ (f : DetResult → ℚ) (g : DetResult → String),
        rawBoxesOf (results.map fun r => { r with prob := f r, text := g r })
          = rawBoxesOf results) := by
  intro results
  have heq := rawBoxesOf_foldl results []
  refine ⟨by simpa [rawBoxesOf] using heq, ?_, ?_⟩
  · intro b hb
    rw [show rawBoxesOf results
        = (results.filter fun r => 8 ≤ (mkRawBox r).h).map mkRawBox from by
      simpa [rawBoxesOf] using heq] at hb
    obtain ⟨r, hr, rfl⟩ := List.mem_map.mp hb
    exact of_decide_eq_true (List.mem_filter.mp hr).2
  · intro f g
    simp only [rawBoxesOf, List.foldl_map]
    rfl

/-- C6 witness: in a concrete result list the height-20 detection survives the
filter. -/
theorem raw_box_height_filter_witness : 8 ≤ (mkRawBox detR1).h :=
  (raw_box_height_filter [detR1, detR2]).2.1 (mkRawBox detR1) (by decide)

/-- C5: `extract_text` terminates with the blur rejection exactly when the
Laplacian-variance blur score is strictly below the threshold 85; the
rejection carries the numeric score and the configured minimum and returns no
text, while any score of 85 or above lets the pipeline proceed to the joined
recognized text. -/
theorem blur_gate_spec :
    ∀ (score : ℚ) (line_texts : List String),
      (extract_text score line_texts = ExtractResult.blurRejected score 85 ↔ score < 85) ∧
      ((∃ txt, extract_text score line_texts = ExtractResult.ok txt) ↔ 85 ≤ score) ∧
      (85 ≤ score → extract_text score line_texts
        = ExtractResult.ok (String.intercalate "\n"
            ((line_texts.map clean_text_output).filter fun t => t ≠ ""))) ∧
      is_blurry score 85 = (decide (score < 85), score) := by
  intro score line_texts
  rcases Decidable.em (score < 85) with h | h
  · refine ⟨iff_of_true ?_ h, iff_of_false ?_ (not_le.mpr h), fun hc => absurd h (not_lt.mpr hc), rfl⟩
    · simp [extract_text, is_blurry, h]
    · simp [extract_text, is_blurry, h]
  · have hok : extract_text score line_texts
        = ExtractResult.ok (String.intercalate "\n"
            ((line_texts.map clean_text_output).filter fun t => t ≠ "")) := by
      simp [extract_text, is_blurry, h]
    exact ⟨iff_of_false (by simp [extract_text, is_blurry, h]) h,
      iff_of_true ⟨_, hok⟩ (not_lt.mp h), fun _ => hok, rfl⟩

/-- C5 witness: a sharp image (score 100) proceeds to recognition of the
single line `"hi"`. -/
theorem blur_gate_spec_witness :
    extract_text 100 ["hi"] = ExtractResult.ok (String.intercalate "\n"
      (((["hi"] : List String).map clean_text_output).filter fun t => t ≠ "")) :=
  (blur_gate_spec 100 ["hi"]).2.2.1 (by norm_num)

/-- C4: scanning boxes sorted by vertical center, a box joins the current
group exactly when its center differs from the running average center of the
group by strictly less than `0.6 ×` the running average height of the group,
and otherwise closes the group and starts a new one; on the examples of the spec,
centers 10 and 14 (heights 20 and 18) merge into one line while centers 10
and 200 form two lines. -/
theorem line_grouping_spec :
    (∀ (merged : List (List Box)) (c : Box) (cs : List Box) (box : Box),
      lineStep (merged, c :: cs) box
        = if |(box.y_center : ℚ) - avgCenter (c :: cs)| < avgHeight (c :: cs) * (6/10)
          then (merged, (c :: cs) ++ [box])
          else (merged ++ [c :: cs], [box])) ∧
    (∀ (merged : List (List Box)) (box : Box),
      lineStep (merged, []) box = (merged, [box])) ∧
    detect_lines [boxA, boxB] = [[boxA, boxB]] ∧
    detect_lines [boxA, boxC] = [[boxA], [boxC]] := by
  refine ⟨fun _ _ _ _ => rfl, fun _ _ => rfl, ?_, ?_⟩
  · norm_num [detect_lines, lineStep, avgCenter, avgHeight, boxA, boxB]
  · norm_num [detect_lines, lineStep, avgCenter, avgHeight, boxA, boxC]

/-- C3: a box is split exactly when its height exceeds both `2.0 ×` the
median height and the absolute floor 30; a split produces
`max(2, round(h / median))` sub-boxes, each of height `h // num_splits` and
inheriting the original horizontal extent, while every other box passes
through unchanged; in particular a box of height 90 among boxes of median
height 30 yields exactly 3 sub-boxes of height 30 sharing its horizontal
extent. -/
theorem split_tall_boxes_spec :
    (∀ (m : ℚ) (box : Box), ¬((box.h : ℚ) > m * 2 ∧ box.h > 30) →
      splitOne m box = [box]) ∧
    (∀ (m : ℚ) (box : Box) (n : ℤ), ((box.h : ℚ) > m * 2 ∧ box.h > 30) →
      n = max 2 (pyround ((box.h : ℚ) / m)) →
      (splitOne m box).length = n.toNat ∧
      ∀ sb ∈ splitOne m box, sb.min_x = box.min_x ∧ sb.max_x = box.max_x ∧
        sb.h = pydiv box.h n) ∧
    (∀ (boxes : List Box) (ih : ℤ), boxes ≠ [] →
      split_tall_boxes boxes ih
        = boxes.flatMap (splitOne (medianQ (boxes.map Box.h)))) ∧
    medianQ [30, 30, 90] = 30 ∧
    split_tall_boxes [b30a, b30b, b90] 1000
      = [b30a, b30b,
         { min_x := 0, min_y := 80, max_x := 100, max_y := 110, y_center := 95, h := 30 },
         { min_x := 0, min_y := 110, max_x := 100, max_y := 140, y_center := 125, h := 30 },
         { min_x := 0, min_y := 140, max_x := 100, max_y := 170, y_center := 155, h := 30 }] := by
  have h1 : ∀ (m : ℚ) (box : Box), ¬((box.h : ℚ) > m * 2 ∧ box.h > 30) →
      splitOne m box = [box] := by
    intro m box h
    simp only [splitOne, if_neg h]
  have h3 : ∀ (boxes : List Box) (ih : ℤ), boxes ≠ [] →
      split_tall_boxes boxes ih
        = boxes.flatMap (splitOne (medianQ (boxes.map Box.h))) := by
    intro boxes ih hne
    cases boxes with
    | nil => exact absurd rfl hne
    | cons b bs => rfl
  have hmed : medianQ [30, 30, 90] = 30 := by
    norm_num [medianQ, List.insertionSort, List.orderedInsert]
  have hsplit90 : splitOne 30 b90
      = [{ min_x := 0, min_y := 80, max_x := 100, max_y := 110, y_center := 95, h := 30 },
         { min_x := 0, min_y := 110, max_x := 100, max_y := 140, y_center := 125, h := 30 },
         { min_x := 0, min_y := 140, max_x := 100, max_y := 170, y_center := 155, h := 30 }] := by
    have hc : ((b90.h : ℚ) > 30 * 2 ∧ b90.h > 30) := by norm_num [b90]
    have hr : max 2 (pyround ((b90.h : ℚ) / 30)) = 3 := by norm_num [pyround, b90]
    simp only [splitOne, if_pos hc, hr]
    decide
  refine ⟨h1, ?_, h3, hmed, ?_⟩
  · intro m box n hcond hn
    subst hn
    refine ⟨by simp only [splitOne, if_pos hcond, List.length_map, List.length_range], ?_⟩
    intro sb hsb
    simp only [splitOne, if_pos hcond, List.mem_map] at hsb
    obtain ⟨i, hi, rfl⟩ := hsb
    exact ⟨rfl, rfl, rfl⟩
  · rw [h3 _ 1000 (by simp)]
    have hmap : ([b30a, b30b, b90].map Box.h) = [30, 30, 90] := rfl
    rw [hmap, hmed]
    have h30a : splitOne 30 b30a = [b30a] := h1 30 b30a (by norm_num [b30a])
    have h30b : splitOne 30 b30b = [b30b] := h1 30 b30b (by norm_num [b30b])
    simp only [List.flatMap_cons, List.flatMap_nil, h30a, h30b, hsplit90]
    rfl

/-- C3 witness: the pass-through rule applied to the height-30 box and the
sub-box count applied to the height-90 box (median 30). -/
theorem split_tall_boxes_spec_witness :
    splitOne 30 b30a = [b30a] ∧ (splitOne 30 b90).length = (3 : ℤ).toNat :=
  ⟨split_tall_boxes_spec.1 30 b30a (by norm_num [b30a]),
   (split_tall_boxes_spec.2.1 30 b90 3 (by norm_num [b90])
     (by norm_num [pyround, b90])).1⟩

/-- C9: the sub-boxes of a split all have height exactly `h // num_splits`
and tile contiguously downward from the original `min_y`; every sub-box ends
at or above `max_y - h % num_splits`, that bound is attained by the last
sub-box, and when `num_splits` does not divide `h` it lies strictly above the
original `max_y`, so the bottom `h % num_splits` pixel rows are covered by no
sub-box. -/
theorem split_sub_box_tiling :
    ∀ (m : ℚ) (box : Box) (n sh : ℤ),
      ((box.h : ℚ) > m * 2 ∧ box.h > 30) →
      box.h = box.max_y - box.min_y →
      n = max 2 (pyround ((box.h : ℚ) / m)) →
      sh = pydiv box.h n →
      (∀ sb ∈ splitOne m box, sb.h = sh ∧ sb.max_y = sb.min_y + sh) ∧
      ((splitOne m box).getD 0 default).min_y = box.min_y ∧
      (∀ i : ℕ, i + 1 < (splitOne m box).length →
        ((splitOne m box).getD (i + 1) default).min_y
          = ((splitOne m box).getD i default).max_y) ∧
      (∀ sb ∈ splitOne m box, sb.max_y ≤ box.max_y - box.h % n) ∧
      (∃ sb ∈ splitOne m box, sb.max_y = box.max_y - box.h % n) ∧
      (box.h % n ≠ 0 → box.max_y - box.h % n < box.max_y) := by
  intro m box n sh hcond hwf hn hsh
  have h30 : box.h > 30 := hcond.2
  have hn2 : (2 : ℤ) ≤ n := hn ▸ le_max_left _ _
  have hsh0 : 0 ≤ sh := by
    rw [hsh, pydiv]
    exact Int.fdiv_nonneg (by omega) (by omega)
  have hdiv : n * sh = box.h - box.h % n := by
    rw [hsh, pydiv, Int.fdiv_eq_ediv _ (by omega : (0 : ℤ) ≤ n)]
    have := Int.ediv_add_emod box.h n
    omega
  have hsplit : splitOne m box = (List.range n.toNat).map (fun i : ℕ =>
      ({ min_x := box.min_x
         min_y := box.min_y + (i : ℤ) * sh
         max_x := box.max_x
         max_y := box.min_y + ((i : ℤ) + 1) * sh
         y_center := pydiv (box.min_y + (i : ℤ) * sh + (box.min_y + ((i : ℤ) + 1) * sh)) 2
         h := sh } : Box)) := by
    simp only [splitOne, if_pos hcond]
    rw [← hn, ← hsh]
  have hlen : (splitOne m box).length = n.toNat := by
    rw [hsplit, List.length_map, List.length_range]
  have hget : ∀ i : ℕ, i < n.toNat →
      (splitOne m box).getD i default
        = { min_x := box.min_x
            min_y := box.min_y + (i : ℤ) * sh
            max_x := box.max_x
            max_y := box.min_y + ((i : ℤ) + 1) * sh
            y_center := pydiv (box.min_y + (i : ℤ) * sh + (box.min_y + ((i : ℤ) + 1) * sh)) 2
            h := sh } := by
    intro i hi
    rw [hsplit, List.getD_eq_getElem _ _ (by simpa using hi)]
    simp
  refine ⟨?_, ?_, ?_, ?_, ?_, ?_⟩
  · intro sb hsb
    rw [hsplit] at hsb
    obtain ⟨i, hi, rfl⟩ := List.mem_map.mp hsb
    exact ⟨rfl, by ring⟩
  · rw [hget 0 (by omega)]
    simp
  · intro i hi
    rw [hlen] at hi
    rw [hget (i + 1) hi, hget i (by omega)]
    push_cast
    ring
  · intro sb hsb
    rw [hsplit] at hsb
    obtain ⟨i, hi, rfl⟩ := List.mem_map.mp hsb
    have hile : (i : ℤ) + 1 ≤ n := by
      have := List.mem_range.mp hi
      omega
    have hmul := mul_le_mul_of_nonneg_right hile hsh0
    show box.min_y + ((i : ℤ) + 1) * sh ≤ box.max_y - box.h % n
    have : box.min_y + n * sh = box.max_y - box.h % n := by
      rw [hdiv]
      omega
    omega
  · rw [hsplit]
    refine ⟨_, List.mem_map.mpr ⟨n.toNat - 1, List.mem_range.mpr (by omega), rfl⟩, ?_⟩
    show box.min_y + (((n.toNat - 1 : ℕ) : ℤ) + 1) * sh = box.max_y - box.h % n
    have hc : ((n.toNat - 1 : ℕ) : ℤ) + 1 = n := by omega
    rw [hc, hdiv]
    omega
  · intro hne0
    have := Int.emod_nonneg box.h (show n ≠ 0 by omega)
    omega

/-- C9 witness: the height-90 box split with median 30 (`num_splits = 3`,
sub-height 30) starts its first sub-box at the original top edge. -/
theorem split_sub_box_tiling_witness :
    ((splitOne 30 b90).getD 0 default).min_y = b90.min_y :=
  (split_sub_box_tiling 30 b90 3 30 (by norm_num [b90]) (by norm_num [b90])
    (by norm_num [pyround, b90]) (by decide)).2.1

end OCRMosip
